import Mathlib

/-
Verification of the FAT filesystem driver layer (namespace fat) of this
repository. The repository ships the driver's headers (src/kernel/fat.hpp and
the concatenated declarations in src/kernel/x86_descriptor.hpp); the bodies of
the declared functions live in a translation unit that is not part of src/, so
each operation below is modelled from the specification text, as its doc
comment records. Machine integers are modelled as Nat; the 28-bit FAT-entry
mask is written explicitly where the spec applies it.
-/

namespace fat

/-- End-of-cluster-chain sentinel, from src/kernel/fat.hpp:
kEndOfClusterchain = 0x0fffffff. -/
def kEndOfClusterchain : Nat := 0x0FFFFFFF

/-- Modelled from the spec: the EOC test fat::IsEndOfClusterchain (declared in
src/kernel/x86_descriptor.hpp, body not in src). The value is masked to 28 bits
and compared against the threshold 0x0FFFFFF8, regardless of the unmasked top
4 reserved bits. -/
def IsEndOfClusterchain (cluster : Nat) : Bool :=
  decide (0x0FFFFFF8 ≤ cluster % 2 ^ 28)

/-- Modelled from the spec: successor lookup fat::NextCluster (body not in
src). Reads the FAT entry of the given cluster; the free marker 0 and any
entry whose 28-bit masked value reaches the EOC threshold yield the EOC
sentinel; any other entry value is returned as the next cluster number. -/
def NextCluster (ft : List Nat) (cluster : Nat) : Nat :=
  let raw := ft.getD cluster 0
  if raw = 0 then kEndOfClusterchain
  else if IsEndOfClusterchain raw then kEndOfClusterchain
  else raw

/-- Modelled from the spec: the linear scan for free FAT entries (value 0,
cluster numbering starting at 2) shared by chain extension and fresh-chain
allocation. -/
def freeClusters (ft : List Nat) : List Nat :=
  (List.range ft.length).filter (fun c => decide (2 ≤ c) && decide (ft.getD c 0 = 0))

/-- Modelled from the spec: links the given clusters one after another behind
prev and writes the EOC sentinel into the last entry linked. -/
def linkChain (ft : List Nat) (prev : Nat) : List Nat → List Nat
  | [] => ft.set prev kEndOfClusterchain
  | c :: cs => linkChain (ft.set prev c) c cs

/-- Modelled from the spec: chain extension fat::ExtendCluster (body not in
src). Scans the FAT for free entries, links at most n of them behind the given
tail in the order found and terminates the chain with EOC; the spec's
insufficient-space contract requires reporting how many clusters of the n
requested were actually appended, so the model returns the updated FAT
together with that count. -/
def ExtendCluster (ft : List Nat) (eoc_cluster : Nat) (n : Nat) : List Nat × Nat :=
  let news := (freeClusters ft).take n
  (linkChain ft eoc_cluster news, news.length)

/-- Modelled from the spec: fresh-chain allocation fat::AllocateClusterChain
(body not in src). The same free-cluster scan, linked into a brand-new chain
with no predecessor; returns the first cluster, or none when zero clusters can
be allocated at all. -/
def AllocateClusterChain (ft : List Nat) (n : Nat) : List Nat × Option Nat :=
  match (freeClusters ft).take n with
  | [] => (ft, none)
  | c :: cs => (linkChain ft c cs, some c)

/-- The cluster reached after i successor-lookup steps. -/
def walk (ft : List Nat) (c : Nat) : Nat → Nat
  | 0 => c
  | i + 1 => walk ft (NextCluster ft c) i

/-- The given clusters are linked consecutively in the FAT, the last one
terminated by EOC. -/
def IsChain (ft : List Nat) : List Nat → Prop
  | [] => True
  | [c] => NextCluster ft c = kEndOfClusterchain
  | c :: c2 :: cs => NextCluster ft c = c2 ∧ IsChain ft (c2 :: cs)

/-- The geometry constants derived from the boot parameter block at mount
time (src/kernel/fat.hpp): the byte offset of the data region and the cached
bytes_per_cluster. -/
structure VolumeGeometry where
  data_region_base : Nat
  bytes_per_cluster : Nat

/-- Modelled from the spec: cluster-to-address translation fat::GetClusterAddr
(declared in src/kernel/fat.hpp, body not in src):
address(cluster) = data_region_base + (cluster - 2) * bytes_per_cluster. -/
def GetClusterAddr (v : VolumeGeometry) (cluster : Nat) : Nat :=
  v.data_region_base + (cluster - 2) * v.bytes_per_cluster

/-- Space-fill a name fragment to exactly n bytes. -/
def padTo (l : List Char) (n : Nat) : List Char :=
  l.take n ++ List.replicate (n - l.length) ' '

/-- Remove the trailing padding spaces of a name field fragment. -/
def stripTrailingSpaces (l : List Char) : List Char :=
  (l.reverse.dropWhile (fun ch => ch == ' ')).reverse

/-- Modelled from the spec: short-name decode fat::ReadName (declared in
src/kernel/fat.hpp, body not in src): splits the padded 11-byte field into the
8-byte base and 3-byte extension, stripping trailing spaces from each. -/
def ReadName (nameField : List Char) : List Char × List Char :=
  (stripTrailingSpaces (nameField.take 8),
   stripTrailingSpaces ((nameField.drop 8).take 3))

/-- Modelled from the spec: short-name encode fat::SetFileName (declared in
src/kernel/x86_descriptor.hpp, body not in src): joins a dotted BASE.EXT name
into the padded 11-byte field, space-filling unused positions. -/
def SetFileName (name : List Char) : List Char :=
  padTo (name.takeWhile (fun ch => ch != '.')) 8 ++
    padTo ((name.dropWhile (fun ch => ch != '.')).drop 1) 3

/-- Directory entry as the resolver sees it: the encoded 11-byte short name,
the directory attribute bit, the combined split first-cluster field, and the
file size (fat::DirectoryEntry of src/kernel/fat.hpp). -/
structure DirectoryEntry where
  name : List Char
  is_directory : Bool
  first_cluster : Nat
  file_size : Nat
deriving DecidableEq

/-- Modelled from the spec: name comparison fat::NameIsEqual (body not in
src): a directory entry matches a candidate when the encoded short names agree
case-insensitively. -/
def NameIsEqual (entry : DirectoryEntry) (name : List Char) : Bool :=
  entry.name.map Char.toUpper == (SetFileName name).map Char.toUpper

/-- The volume as the directory index sees it: the FAT, the live directory
entries stored in each data cluster (the scan skips never-used and deleted
slots, so only live entries are modelled), and the BPB root cluster. -/
structure FSState where
  fat : List Nat
  dirs : List (List DirectoryEntry)
  root_cluster : Nat

/-- Every live entry of a directory, scanning each cluster of the directory
chain in order; fuel bounds the traversal of a corrupted chain. -/
def dirEntries (fs : FSState) : Nat → Nat → List DirectoryEntry
  | _, 0 => []
  | cluster, fuel + 1 =>
    if cluster = kEndOfClusterchain then []
    else fs.dirs.getD cluster [] ++ dirEntries fs (NextCluster fs.fat cluster) fuel

/-- First entry of a directory matching the candidate name. -/
def findInDir (entries : List DirectoryEntry) (name : List Char) : Option DirectoryEntry :=
  entries.find? (fun e => NameIsEqual e name)

/-- Modelled from the spec: component-at-a-time resolution inside
fat::FindFile (body not in src), over the slash-split path. A matched
directory with components remaining recurses into its first cluster; a
matched file with components remaining stops and returns the entry with the
trailing flag set; a path ending in a separator returns the entry with the
trailing flag set; a failed match is not-found. -/
def resolve (fs : FSState) (fuel : Nat) : List (List Char) → Nat → Option (DirectoryEntry × Bool)
  | [], _ => none
  | comp :: rest, dirCluster =>
    match findInDir (dirEntries fs dirCluster fuel) comp with
    | none => none
    | some e =>
      if rest = [] then some (e, false)
      else if rest = [[]] then some (e, true)
      else if e.is_directory then resolve fs fuel rest e.first_cluster
      else some (e, true)

/-- Modelled from the spec: fat::FindFile (body not in src). A leading slash
starts from the root directory; a zero starting cluster defaults to the root;
the path is then resolved one slash-separated component at a time. -/
def FindFile (fs : FSState) (path : List Char) (directory_cluster : Nat) :
    Option (DirectoryEntry × Bool) :=
  if path.headD ' ' = '/' then
    resolve fs (fs.fat.length + 1) ((path.drop 1).splitOn '/') fs.root_cluster
  else if directory_cluster = 0 then
    resolve fs (fs.fat.length + 1) (path.splitOn '/') fs.root_cluster
  else
    resolve fs (fs.fat.length + 1) (path.splitOn '/') directory_cluster

/-- File handle state: the volume image (FAT, per-cluster data bytes, cached
bytes_per_cluster), the bound directory entry fields (file_size,
first_cluster), and the two independent cursors of fat::FileDescriptor in
src/kernel/x86_descriptor.hpp. -/
structure FileDescriptor where
  fat : List Nat
  data : List (List Nat)
  bytes_per_cluster : Nat
  file_size : Nat
  first_cluster : Nat
  rd_off : Nat
  rd_cluster : Nat
  rd_cluster_off : Nat
  wr_off : Nat
  wr_cluster : Nat
  wr_cluster_off : Nat
deriving DecidableEq

/-- Size() of src/kernel/x86_descriptor.hpp: returns the entry's file_size
field verbatim. -/
def FileDescriptor.Size (s : FileDescriptor) : Nat := s.file_size

/-- A newly constructed descriptor: the in-class initializers of
src/kernel/x86_descriptor.hpp (lines 229 to 234) zero every cursor field, and
the constructor only binds the directory entry. -/
def FileDescriptor.mkFresh (ft : List Nat) (data : List (List Nat))
    (bpc fsize fcluster : Nat) : FileDescriptor :=
  { fat := ft, data := data, bytes_per_cluster := bpc, file_size := fsize,
    first_cluster := fcluster,
    rd_off := 0, rd_cluster := 0, rd_cluster_off := 0,
    wr_off := 0, wr_cluster := 0, wr_cluster_off := 0 }

/-- Overwrite part of a cluster's bytes at the given intra-cluster offset. -/
def listOverwrite (l : List Nat) (off : Nat) (chunk : List Nat) : List Nat :=
  l.take off ++ chunk ++ l.drop (off + chunk.length)

/-- The bytes stored along a list of clusters, in order. -/
def contentAlong (data : List (List Nat)) : List Nat → List Nat
  | [] => []
  | c :: cs => data.getD c [] ++ contentAlong data cs

/-- Whole clusters needed to hold the given number of bytes (the num_cluster
rounding of the write path). -/
def numCluster (bpc bytes : Nat) : Nat := (bytes + bpc - 1) / bpc

/-- Modelled from the spec: the copy loop of fat::FileDescriptor::Read (body
not in src). Each step copies min(remaining, bytes_per_cluster minus the
intra-cluster offset) bytes at the read cursor, then advances the cursor,
moving to the successor cluster when it crosses the cluster boundary and
stopping early at end-of-chain. -/
def ReadAux : Nat → FileDescriptor → Nat → List Nat × FileDescriptor
  | 0, s, _ => ([], s)
  | fuel + 1, s, remaining =>
    if remaining = 0 then ([], s)
    else if s.rd_cluster = kEndOfClusterchain then ([], s)
    else
      let n := min remaining (s.bytes_per_cluster - s.rd_cluster_off)
      let chunk := ((s.data.getD s.rd_cluster []).drop s.rd_cluster_off).take n
      let s2 :=
        if s.rd_cluster_off + n = s.bytes_per_cluster then
          { s with rd_cluster := NextCluster s.fat s.rd_cluster, rd_cluster_off := 0 }
        else { s with rd_cluster_off := s.rd_cluster_off + n }
      let r := ReadAux fuel s2 (remaining - n)
      (chunk ++ r.1, r.2)

/-- Modelled from the spec: fat::FileDescriptor::Read (body not in src).
Copies min(length, file_size minus the read cursor offset) bytes starting at
the read cursor (binding the cursor to the entry's first cluster on first
use), advances the read cursor by the bytes copied, and returns them; the
write cursor is untouched. -/
def FileDescriptor.Read (s : FileDescriptor) (len : Nat) : List Nat × FileDescriptor :=
  let len2 := min len (s.file_size - s.rd_off)
  let s0 := if s.rd_cluster = 0 then { s with rd_cluster := s.first_cluster } else s
  let r := ReadAux (len2 + 1) s0 len2
  (r.1, { r.2 with rd_off := r.2.rd_off + r.1.length })

/-- Modelled from the spec: the copy loop of fat::FileDescriptor::Write (body
not in src). Each step copies into the cluster under the write cursor; when
the cursor reaches the cluster boundary it moves to the successor cluster,
extending the chain by whole clusters at end-of-chain; if the extension finds
no free cluster (volume full) the loop stops, returning the bytes written so
far; file_size is raised to the high-water mark as bytes are committed. -/
def WriteAux : Nat → FileDescriptor → List Nat → Nat × FileDescriptor
  | 0, s, _ => (0, s)
  | fuel + 1, s, buf =>
    if buf = [] then (0, s)
    else if s.wr_cluster_off = s.bytes_per_cluster then
      let nc := NextCluster s.fat s.wr_cluster
      if nc = kEndOfClusterchain then
        let e := ExtendCluster s.fat s.wr_cluster (numCluster s.bytes_per_cluster buf.length)
        if e.2 = 0 then (0, s)
        else
          WriteAux fuel
            { s with fat := e.1, wr_cluster := NextCluster e.1 s.wr_cluster,
                     wr_cluster_off := 0 } buf
      else WriteAux fuel { s with wr_cluster := nc, wr_cluster_off := 0 } buf
    else
      let n := min buf.length (s.bytes_per_cluster - s.wr_cluster_off)
      let r := WriteAux fuel
        { s with
            data := s.data.set s.wr_cluster
              (listOverwrite (s.data.getD s.wr_cluster []) s.wr_cluster_off (buf.take n)),
            wr_cluster_off := s.wr_cluster_off + n,
            wr_off := s.wr_off + n,
            file_size := max s.file_size (s.wr_off + n) }
        (buf.drop n)
      (n + r.1, r.2)

/-- Modelled from the spec: fat::FileDescriptor::Write (body not in src).
Binds the write cursor on first use to the entry's first cluster, allocating a
fresh chain sized for the request when the entry has none (recording it in the
first-cluster field); then runs the copy loop, which stops early with a short
count when the volume fills up. -/
def FileDescriptor.Write (s : FileDescriptor) (buf : List Nat) : Nat × FileDescriptor :=
  let s0 :=
    if s.wr_cluster ≠ 0 then s
    else if s.first_cluster ≠ 0 then { s with wr_cluster := s.first_cluster }
    else
      let a := AllocateClusterChain s.fat (numCluster s.bytes_per_cluster buf.length)
      { s with fat := a.1, wr_cluster := a.2.getD 0, first_cluster := a.2.getD 0 }
  if s0.wr_cluster = 0 then (0, s0)
  else WriteAux (2 * buf.length + 2) s0 buf

/-- Sample directory entry DIR of the spec's resolution scenario. -/
def sampleDirEntry : DirectoryEntry :=
  { name := SetFileName "DIR".toList, is_directory := true,
    first_cluster := 3, file_size := 0 }

/-- Sample file entry FILE.TXT inside DIR. -/
def sampleFileEntry : DirectoryEntry :=
  { name := SetFileName "FILE.TXT".toList, is_directory := false,
    first_cluster := 4, file_size := 9 }

/-- Sample volume of the spec's resolution scenario: the root (cluster 2)
holds DIR, whose single-cluster chain (cluster 3) holds FILE.TXT. -/
def sampleFS : FSState :=
  { fat := [1, 1, kEndOfClusterchain, kEndOfClusterchain, kEndOfClusterchain],
    dirs := [[], [], [sampleDirEntry], [sampleFileEntry], []],
    root_cluster := 2 }

/-! ### Basic list helpers -/

theorem getD_set_self {α : Type} (l : List α) (i : Nat) (a d : α) (h : i < l.length) :
    (l.set i a).getD i d = a := by
  simp [List.getD_eq_getElem?_getD, List.getElem?_set_self h]

theorem getD_set_ne {α : Type} (l : List α) (i j : Nat) (a d : α) (h : i ≠ j) :
    (l.set i a).getD j d = l.getD j d := by
  simp [List.getD_eq_getElem?_getD, List.getElem?_set_ne h]

theorem getD_mem {α : Type} (l : List α) (i : Nat) (d : α) (h : i < l.length) :
    l.getD i d ∈ l := by
  rw [List.getD_eq_getElem?_getD, List.getElem?_eq_getElem h]
  exact List.getElem_mem h

/-! ### Successor lookup -/

theorem nextCluster_of_valid (ft : List Nat) (c v : Nat) (hv : ft.getD c 0 = v)
    (h0 : v ≠ 0) (hlt : v < 0x0FFFFFF8) : NextCluster ft c = v := by
  unfold NextCluster IsEndOfClusterchain
  have hc : ¬(decide (0x0FFFFFF8 ≤ v % 2 ^ 28) = true) := by
    simp only [decide_eq_true_eq]
    rw [Nat.mod_eq_of_lt (by omega)]
    omega
  rw [hv, if_neg h0, if_neg hc]

theorem nextCluster_eoc_entry (ft : List Nat) (c : Nat)
    (hv : ft.getD c 0 = kEndOfClusterchain) : NextCluster ft c = kEndOfClusterchain := by
  unfold NextCluster
  rw [hv]
  decide

/-- Claim C3: the successor lookup returns EOC on an entry whose 28-bit masked
value reaches 0x0FFFFFF8 (regardless of the reserved top bits) and on the free
marker 0, and returns the entry value itself on any other entry. -/
theorem nextCluster_cases (ft : List Nat) (c : Nat) :
    (0x0FFFFFF8 ≤ ft.getD c 0 % 2 ^ 28 → NextCluster ft c = kEndOfClusterchain) ∧
    (ft.getD c 0 = 0 → NextCluster ft c = kEndOfClusterchain) ∧
    (ft.getD c 0 ≠ 0 → ft.getD c 0 % 2 ^ 28 < 0x0FFFFFF8 →
      NextCluster ft c = ft.getD c 0) := by
  refine ⟨?_, ?_, ?_⟩
  · intro h
    unfold NextCluster IsEndOfClusterchain
    by_cases h0 : ft.getD c 0 = 0
    · rw [if_pos h0]
    · rw [if_neg h0, if_pos (decide_eq_true h)]
  · intro h
    unfold NextCluster
    rw [if_pos h]
  · intro h1 h2
    unfold NextCluster IsEndOfClusterchain
    rw [if_neg h1, if_neg ?_]
    simp only [decide_eq_true_eq]
    exact Nat.not_le.2 h2

/-- Witness for C3: an entry with the reserved top bits set whose masked value
is in the EOC range is treated as EOC. -/
theorem nextCluster_cases_witness :
    NextCluster [0, 0, 0xFFFFFFF8] 2 = kEndOfClusterchain :=
  (nextCluster_cases [0, 0, 0xFFFFFFF8] 2).1 (by decide)

/-- Claim C5: the address translation follows the documented formula, adjacent
valid clusters are exactly bytes_per_cluster apart, and the mapping is
injective over valid cluster numbers. -/
theorem getClusterAddr_spec (v : VolumeGeometry) (c : Nat) (hc : 2 ≤ c)
    (hbpc : 0 < v.bytes_per_cluster) :
    GetClusterAddr v c = v.data_region_base + (c - 2) * v.bytes_per_cluster ∧
    GetClusterAddr v (c + 1) - GetClusterAddr v c = v.bytes_per_cluster ∧
    ∀ c2, 2 ≤ c2 → GetClusterAddr v c = GetClusterAddr v c2 → c = c2 := by
  unfold GetClusterAddr
  refine ⟨rfl, ?_, ?_⟩
  · have h1 : (c + 1 - 2) * v.bytes_per_cluster
        = (c - 2) * v.bytes_per_cluster + v.bytes_per_cluster := by
      have h2 : c + 1 - 2 = (c - 2) + 1 := by omega
      rw [h2, Nat.succ_mul]
    rw [h1]
    generalize (c - 2) * v.bytes_per_cluster = t
    omega
  · intro c2 h2 heq
    have h3 : (c - 2) * v.bytes_per_cluster = (c2 - 2) * v.bytes_per_cluster :=
      Nat.add_left_cancel heq
    have h4 := Nat.eq_of_mul_eq_mul_right hbpc h3
    omega

/-- Witness for C5: with a data region at byte 100 and 8-byte clusters,
consecutive clusters are 8 bytes apart. -/
theorem getClusterAddr_spec_witness :
    GetClusterAddr ⟨100, 8⟩ 6 - GetClusterAddr ⟨100, 8⟩ 5 = 8 :=
  (getClusterAddr_spec ⟨100, 8⟩ 5 (by decide) (by decide)).2.1

/-- Claim C7: the short-name codec round-trips the dotted form ABC.TXT into
base ABC with extension TXT, and the extensionless README into base README
with an empty extension. -/
theorem shortName_roundtrip :
    ReadName (SetFileName "ABC.TXT".toList) = ("ABC".toList, "TXT".toList) ∧
    ReadName (SetFileName "README".toList) = ("README".toList, []) := by
  constructor <;> decide

/-! ### Free-cluster scan and chain linking -/

theorem mem_freeClusters (ft : List Nat) (c : Nat) :
    c ∈ freeClusters ft ↔ c < ft.length ∧ 2 ≤ c ∧ ft.getD c 0 = 0 := by
  unfold freeClusters
  rw [List.mem_filter, List.mem_range]
  simp only [Bool.and_eq_true, decide_eq_true_eq]

theorem nodup_freeClusters (ft : List Nat) : (freeClusters ft).Nodup :=
  (List.nodup_range _).filter _

theorem linkChain_length : ∀ (cs : List Nat) (ft : List Nat) (prev : Nat),
    (linkChain ft prev cs).length = ft.length
  | [], ft, prev => by simp [linkChain]
  | c :: cs, ft, prev => by
      simp only [linkChain]
      rw [linkChain_length cs (ft.set prev c) c, List.length_set]

theorem linkChain_getD_of_not_mem : ∀ (cs : List Nat) (ft : List Nat) (prev i d : Nat),
    i ≠ prev → i ∉ cs → (linkChain ft prev cs).getD i d = ft.getD i d
  | [], ft, prev, i, d, hne, _ => by
      simp only [linkChain]
      exact getD_set_ne ft prev i kEndOfClusterchain d (Ne.symm hne)
  | c :: cs, ft, prev, i, d, hne, hmem => by
      simp only [linkChain]
      rw [linkChain_getD_of_not_mem cs (ft.set prev c) c i d
        (fun h => hmem (by simp [h])) (fun h => hmem (by simp [h]))]
      exact getD_set_ne ft prev i c d (Ne.symm hne)

theorem linkChain_getD_mem_ne_zero : ∀ (cs : List Nat) (ft : List Nat) (prev x : Nat),
    (prev :: cs).Nodup → (∀ c ∈ cs, 2 ≤ c ∧ c < ft.length) → prev < ft.length →
    x ∈ prev :: cs → (linkChain ft prev cs).getD x 0 ≠ 0
  | [], ft, prev, x, _, _, hprev, hx => by
      have hxp : x = prev := by simpa using hx
      subst hxp
      simp only [linkChain]
      rw [getD_set_self ft x kEndOfClusterchain 0 hprev]
      decide
  | c :: cs, ft, prev, x, hnd, hmem, hprev, hx => by
      simp only [linkChain]
      rcases List.mem_cons.1 hx with hxp | hxtail
      · subst hxp
        have hnotin : x ∉ c :: cs := (List.nodup_cons.1 hnd).1
        rw [linkChain_getD_of_not_mem cs (ft.set x c) c x 0
          (fun h => hnotin (by simp [h])) (fun h => hnotin (by simp [h]))]
        rw [getD_set_self ft x c 0 hprev]
        have := (hmem c (List.mem_cons_self _ _)).1
        omega
      · exact linkChain_getD_mem_ne_zero cs (ft.set prev c) c x
          (List.nodup_cons.1 hnd).2
          (fun y hy => by
            rw [List.length_set]
            exact hmem y (List.mem_cons_of_mem _ hy))
          (by rw [List.length_set]; exact (hmem c (List.mem_cons_self _ _)).2)
          hxtail

theorem linkChain_isChain : ∀ (cs : List Nat) (ft : List Nat) (prev : Nat),
    (prev :: cs).Nodup → (∀ c ∈ cs, 2 ≤ c ∧ c < ft.length) → prev < ft.length →
    ft.length ≤ 0x0FFFFFF8 → IsChain (linkChain ft prev cs) (prev :: cs)
  | [], ft, prev, _, _, hprev, _ => by
      show NextCluster (linkChain ft prev []) prev = kEndOfClusterchain
      simp only [linkChain]
      exact nextCluster_eoc_entry _ _ (getD_set_self ft prev kEndOfClusterchain 0 hprev)
  | c :: cs, ft, prev, hnd, hmem, hprev, hlen => by
      have hc := hmem c (List.mem_cons_self _ _)
      have hnotin : prev ∉ c :: cs := (List.nodup_cons.1 hnd).1
      show NextCluster (linkChain ft prev (c :: cs)) prev = c ∧
        IsChain (linkChain ft prev (c :: cs)) (c :: cs)
      simp only [linkChain]
      constructor
      · apply nextCluster_of_valid _ _ c ?_ (by omega) (by omega)
        rw [linkChain_getD_of_not_mem cs (ft.set prev c) c prev 0
          (fun h => hnotin (by simp [h])) (fun h => hnotin (by simp [h]))]
        exact getD_set_self ft prev c 0 hprev
      · exact linkChain_isChain cs (ft.set prev c) c (List.nodup_cons.1 hnd).2
          (fun x hx => by
            rw [List.length_set]
            exact hmem x (List.mem_cons_of_mem _ hx))
          (by rw [List.length_set]; exact hc.2)
          (by rw [List.length_set]; exact hlen)

theorem isChain_walk : ∀ (l : List Nat) (ft : List Nat), IsChain ft l → l ≠ [] →
    (∀ i, i < l.length → walk ft (l.headD 0) i = l.getD i 0) ∧
    walk ft (l.headD 0) l.length = kEndOfClusterchain
  | [], _, _, hne => absurd rfl hne
  | [c], ft, hch, _ => by
      have heoc : NextCluster ft c = kEndOfClusterchain := hch
      constructor
      · intro i hi
        have h0 : i = 0 := by
          simp only [List.length_cons, List.length_nil] at hi
          omega
        subst h0
        rfl
      · show walk ft (NextCluster ft c) 0 = kEndOfClusterchain
        rw [heoc]
        rfl
  | c :: c2 :: cs, ft, hch, _ => by
      obtain ⟨h1, h2⟩ : NextCluster ft c = c2 ∧ IsChain ft (c2 :: cs) := hch
      have ih := isChain_walk (c2 :: cs) ft h2 (by simp)
      constructor
      · intro i hi
        cases i with
        | zero => rfl
        | succ j =>
          show walk ft (NextCluster ft c) j = (c :: c2 :: cs).getD (j + 1) 0
          rw [h1, List.getD_cons_succ]
          exact ih.1 j (by simpa using hi)
      · show walk ft (NextCluster ft c) (c2 :: cs).length = kEndOfClusterchain
        rw [h1]
        exact ih.2

/-- Claim C2: requesting n clusters when only k of them are free leaves the
chain walkable from the old tail to a well-formed EOC after exactly k new
links, and the reported appended count is exactly k. -/
theorem extendCluster_insufficient (ft : List Nat) (eoc n : Nat)
    (heoc : IsEndOfClusterchain (ft.getD eoc 0) = true)
    (hlt : eoc < ft.length) (hbound : ft.length ≤ 0x0FFFFFF8)
    (hk : (freeClusters ft).length < n) :
    (ExtendCluster ft eoc n).2 = (freeClusters ft).length ∧
    walk (ExtendCluster ft eoc n).1 eoc ((freeClusters ft).length + 1)
      = kEndOfClusterchain ∧
    ∀ i, i ≤ (freeClusters ft).length →
      walk (ExtendCluster ft eoc n).1 eoc i ≠ kEndOfClusterchain := by
  have htake : (freeClusters ft).take n = freeClusters ft :=
    List.take_of_length_le (Nat.le_of_lt hk)
  have hext : ExtendCluster ft eoc n
      = (linkChain ft eoc (freeClusters ft), (freeClusters ft).length) := by
    unfold ExtendCluster
    rw [htake]
  have hnz : ft.getD eoc 0 ≠ 0 := by
    intro h
    rw [h] at heoc
    simp [IsEndOfClusterchain] at heoc
  have hnotin : eoc ∉ freeClusters ft := by
    intro h
    exact hnz ((mem_freeClusters ft eoc).1 h).2.2
  have hnd : (eoc :: freeClusters ft).Nodup :=
    List.nodup_cons.2 ⟨hnotin, nodup_freeClusters ft⟩
  have hmem : ∀ c ∈ freeClusters ft, 2 ≤ c ∧ c < ft.length := by
    intro c hcm
    have := (mem_freeClusters ft c).1 hcm
    exact ⟨this.2.1, this.1⟩
  have hchain := linkChain_isChain (freeClusters ft) ft eoc hnd hmem hlt hbound
  have hwalk := isChain_walk (eoc :: freeClusters ft) _ hchain (by simp)
  rw [hext]
  refine ⟨rfl, ?_, ?_⟩
  · have := hwalk.2
    simpa using this
  · intro i hi
    have hgot := hwalk.1 i (by simpa using Nat.lt_succ_of_le hi)
    simp only [List.headD_cons] at hgot
    rw [hgot]
    have hmem2 := getD_mem (eoc :: freeClusters ft) i 0
      (by simpa using Nat.lt_succ_of_le hi)
    have hlt2 : (eoc :: freeClusters ft).getD i 0 < ft.length := by
      rcases List.mem_cons.1 hmem2 with h | h
      · rw [h]; exact hlt
      · exact (hmem _ h).2
    intro hcontra
    rw [hcontra] at hlt2
    unfold kEndOfClusterchain at hlt2
    omega

/-- Witness for C2: a FAT with a single free cluster, asked for two, appends
one, reports one, and the chain from the old tail reaches EOC on step 2. -/
theorem extendCluster_insufficient_witness :
    (ExtendCluster [1, 1, 0x0FFFFFFF, 0, 7] 2 2).2 = 1 ∧
    walk (ExtendCluster [1, 1, 0x0FFFFFFF, 0, 7] 2 2).1 2 2 = kEndOfClusterchain := by
  have h := extendCluster_insufficient [1, 1, 0x0FFFFFFF, 0, 7] 2 2
    (by decide) (by decide) (by decide) (by decide)
  exact ⟨h.1, h.2.1⟩

/-- Claim C9: allocating a fresh chain of n clusters when at least n are free
yields a first cluster from which the successor walk reaches EOC exactly on the
n-th step; when no cluster at all can be allocated the result is the
null indicator. -/
theorem allocateClusterChain_spec (ft : List Nat) (n : Nat) (hn : 1 ≤ n)
    (hbound : ft.length ≤ 0x0FFFFFF8) :
    (n ≤ (freeClusters ft).length →
      ∃ ft2 c, AllocateClusterChain ft n = (ft2, some c) ∧
        walk ft2 c n = kEndOfClusterchain ∧
        ∀ i, i < n → walk ft2 c i ≠ kEndOfClusterchain) ∧
    (freeClusters ft = [] → (AllocateClusterChain ft n).2 = none) := by
  constructor
  · intro hfree
    have hlen : ((freeClusters ft).take n).length = n := by
      rw [List.length_take]
      omega
    rcases htake : (freeClusters ft).take n with _ | ⟨c, cs⟩
    · rw [htake] at hlen
      simp at hlen
      omega
    · have halloc : AllocateClusterChain ft n = (linkChain ft c cs, some c) := by
        unfold AllocateClusterChain
        rw [htake]
      have hsub : ∀ x ∈ c :: cs, x ∈ freeClusters ft := by
        intro x hx
        have : x ∈ (freeClusters ft).take n := by rw [htake]; exact hx
        exact List.mem_of_mem_take this
      have hnd : (c :: cs).Nodup := by
        have := (List.take_sublist n (freeClusters ft)).nodup (nodup_freeClusters ft)
        rwa [htake] at this
      have hmem : ∀ x ∈ c :: cs, 2 ≤ x ∧ x < ft.length := by
        intro x hx
        have := (mem_freeClusters ft x).1 (hsub x hx)
        exact ⟨this.2.1, this.1⟩
      have hchain := linkChain_isChain cs ft c hnd
        (fun x hx => hmem x (List.mem_cons_of_mem _ hx))
        (hmem c (List.mem_cons_self _ _)).2 hbound
      have hwalk := isChain_walk (c :: cs) _ hchain (by simp)
      have hlen2 : cs.length + 1 = n := by
        rw [htake] at hlen
        simpa using hlen
      refine ⟨linkChain ft c cs, c, halloc, ?_, ?_⟩
      · have := hwalk.2
        simp only [List.headD_cons, List.length_cons] at this
        rwa [hlen2] at this
      · intro i hi
        have hgot := hwalk.1 i (by simp only [List.length_cons]; omega)
        simp only [List.headD_cons] at hgot
        rw [hgot]
        have hmem2 := getD_mem (c :: cs) i 0 (by simp only [List.length_cons]; omega)
        have hlt2 : (c :: cs).getD i 0 < ft.length := (hmem _ hmem2).2
        intro hcontra
        rw [hcontra] at hlt2
        unfold kEndOfClusterchain at hlt2
        omega
  · intro hfree
    unfold AllocateClusterChain
    rw [hfree, List.take_nil]

/-- Witness for C9: allocating 3 clusters on a volume with 4 free ones yields
first cluster 2, and the walk reaches EOC exactly on step 3. -/
theorem allocateClusterChain_spec_witness :
    walk (AllocateClusterChain [1, 1, 0, 0, 0, 0] 3).1 2 3 = kEndOfClusterchain ∧
    walk (AllocateClusterChain [1, 1, 0, 0, 0, 0] 3).1 2 2 ≠ kEndOfClusterchain := by
  obtain ⟨ft2, c, heq, hw, hlt⟩ :=
    (allocateClusterChain_spec [1, 1, 0, 0, 0, 0] 3 (by decide) (by decide)).1 (by decide)
  have hc : c = 2 := by
    have := congrArg Prod.snd heq
    simp only at this
    have h2 : AllocateClusterChain [1, 1, 0, 0, 0, 0] 3
        = ([1, 1, 3, 4, 0x0FFFFFFF, 0], some 2) := by decide
    rw [h2] at heq
    exact (Option.some_inj.1 (congrArg Prod.snd heq).symm)
  have hft : ft2 = (AllocateClusterChain [1, 1, 0, 0, 0, 0] 3).1 := by
    rw [congrArg Prod.fst heq]
  subst hc
  rw [hft] at hw hlt
  exact ⟨hw, hlt 2 (by decide)⟩

/-! ### Path resolution -/

/-- Claim C4: resolution of a component list returns not-found when the
current component fails to match; returns the matched entry with the trailing
flag set when the entry is a file but components remain, and when the path
ends in a separator; returns the entry with the flag clear when the component
is last; and on the spec's sample volume, FindFile resolves /DIR/FILE.TXT to
the file entry with the flag clear, /DIR/ to the DIR entry with the flag set,
and /NOPE to not-found. -/
theorem findFile_resolution (fs : FSState) (fuel dirCluster : Nat)
    (comp : List Char) (rest : List (List Char)) :
    (findInDir (dirEntries fs dirCluster fuel) comp = none →
      resolve fs fuel (comp :: rest) dirCluster = none) ∧
    (∀ e, findInDir (dirEntries fs dirCluster fuel) comp = some e →
      e.is_directory = false → rest ≠ [] → rest ≠ [[]] →
      resolve fs fuel (comp :: rest) dirCluster = some (e, true)) ∧
    (∀ e, findInDir (dirEntries fs dirCluster fuel) comp = some e →
      resolve fs fuel (comp :: [[]]) dirCluster = some (e, true)) ∧
    (∀ e, findInDir (dirEntries fs dirCluster fuel) comp = some e →
      resolve fs fuel [comp] dirCluster = some (e, false)) ∧
    (FindFile sampleFS "/DIR/FILE.TXT".toList 0 = some (sampleFileEntry, false) ∧
      FindFile sampleFS "/DIR/".toList 0 = some (sampleDirEntry, true) ∧
      FindFile sampleFS "/NOPE".toList 0 = none) := by
  refine ⟨?_, ?_, ?_, ?_, by decide, by decide, by decide⟩
  · intro h
    simp [resolve, h]
  · intro e he hfile h1 h2
    simp [resolve, he, h1, h2, hfile]
  · intro e he
    simp [resolve, he]
  · intro e he
    simp [resolve, he]

/-- Witness for C4: on the sample volume, resolving the components FILE.TXT
followed by X inside directory cluster 3 matches the file and stops with the
trailing flag set. -/
theorem findFile_resolution_witness :
    resolve sampleFS 6 ["FILE.TXT".toList, "X".toList] 3 = some (sampleFileEntry, true) :=
  (findFile_resolution sampleFS 6 3 "FILE.TXT".toList ["X".toList]).2.1
    sampleFileEntry (by decide) (by decide) (by decide) (by decide)

/-! ### File handle: frame facts for the two cursors -/

theorem readAux_zero_rem (fuel : Nat) (s : FileDescriptor) :
    ReadAux fuel s 0 = ([], s) := by
  cases fuel <;> simp [ReadAux]

theorem writeAux_nil (fuel : Nat) (s : FileDescriptor) :
    WriteAux fuel s [] = (0, s) := by
  cases fuel <;> simp [WriteAux]

theorem readAux_frame : ∀ (fuel : Nat) (s : FileDescriptor) (remaining : Nat),
    (ReadAux fuel s remaining).2.fat = s.fat ∧
    (ReadAux fuel s remaining).2.data = s.data ∧
    (ReadAux fuel s remaining).2.bytes_per_cluster = s.bytes_per_cluster ∧
    (ReadAux fuel s remaining).2.file_size = s.file_size ∧
    (ReadAux fuel s remaining).2.first_cluster = s.first_cluster ∧
    (ReadAux fuel s remaining).2.rd_off = s.rd_off ∧
    (ReadAux fuel s remaining).2.wr_off = s.wr_off ∧
    (ReadAux fuel s remaining).2.wr_cluster = s.wr_cluster ∧
    (ReadAux fuel s remaining).2.wr_cluster_off = s.wr_cluster_off
  | 0, s, remaining => by simp [ReadAux]
  | fuel + 1, s, remaining => by
      simp only [ReadAux]
      split
      · simp
      split
      · simp
      split
      · exact readAux_frame fuel _ _
      · exact readAux_frame fuel _ _

theorem writeAux_frame : ∀ (fuel : Nat) (s : FileDescriptor) (buf : List Nat),
    (WriteAux fuel s buf).2.bytes_per_cluster = s.bytes_per_cluster ∧
    (WriteAux fuel s buf).2.first_cluster = s.first_cluster ∧
    (WriteAux fuel s buf).2.rd_off = s.rd_off ∧
    (WriteAux fuel s buf).2.rd_cluster = s.rd_cluster ∧
    (WriteAux fuel s buf).2.rd_cluster_off = s.rd_cluster_off
  | 0, s, buf => by simp [WriteAux]
  | fuel + 1, s, buf => by
      simp only [WriteAux]
      split
      · simp
      split
      · split
        · split
          · simp
          · exact writeAux_frame fuel _ _
        · exact writeAux_frame fuel _ _
      · exact writeAux_frame fuel _ _

/-- Claim C8: reading never moves any of the three write-cursor fields and
writing never moves any of the three read-cursor fields; in particular, on a
fresh handle, writing ten bytes and then reading from offset zero returns the
original data. -/
theorem cursor_independence (s : FileDescriptor) (len : Nat) (buf : List Nat) :
    ((s.Read len).2.wr_off = s.wr_off ∧
      (s.Read len).2.wr_cluster = s.wr_cluster ∧
      (s.Read len).2.wr_cluster_off = s.wr_cluster_off) ∧
    ((s.Write buf).2.rd_off = s.rd_off ∧
      (s.Write buf).2.rd_cluster = s.rd_cluster ∧
      (s.Write buf).2.rd_cluster_off = s.rd_cluster_off) ∧
    (((FileDescriptor.mkFresh [1, 1, 0, 0, 0, 0]
        [[0, 0, 0, 0], [0, 0, 0, 0], [0, 0, 0, 0], [0, 0, 0, 0], [0, 0, 0, 0], [0, 0, 0, 0]]
        4 0 0).Write [3, 1, 4, 1, 5, 9, 2, 6, 5, 3]).2.Read 10).1
      = [3, 1, 4, 1, 5, 9, 2, 6, 5, 3] := by
  refine ⟨?_, ?_, by decide⟩
  · by_cases h1 : s.rd_cluster = 0
    · simp only [FileDescriptor.Read, h1, if_pos rfl]
      exact ⟨(readAux_frame _ _ _).2.2.2.2.2.2.1,
        (readAux_frame _ _ _).2.2.2.2.2.2.2.1,
        (readAux_frame _ _ _).2.2.2.2.2.2.2.2⟩
    · simp only [FileDescriptor.Read, if_neg h1]
      exact ⟨(readAux_frame _ _ _).2.2.2.2.2.2.1,
        (readAux_frame _ _ _).2.2.2.2.2.2.2.1,
        (readAux_frame _ _ _).2.2.2.2.2.2.2.2⟩
  · by_cases h1 : s.wr_cluster = 0
    · by_cases h2 : s.first_cluster = 0
      · by_cases h3 :
          (AllocateClusterChain s.fat (numCluster s.bytes_per_cluster buf.length)).2.getD 0 = 0
        · simp [FileDescriptor.Write, h1, h2, h3]
        · simp only [FileDescriptor.Write, h1, h2, ne_eq, not_true_eq_false, if_false,
            if_neg h3]
          exact ⟨(writeAux_frame _ _ _).2.2.1, (writeAux_frame _ _ _).2.2.2.1,
            (writeAux_frame _ _ _).2.2.2.2⟩
      · simp only [FileDescriptor.Write, h1, ne_eq, not_true_eq_false, if_false,
          if_pos h2, if_neg h2]
        exact ⟨(writeAux_frame _ _ _).2.2.1, (writeAux_frame _ _ _).2.2.2.1,
          (writeAux_frame _ _ _).2.2.2.2⟩
    · simp only [FileDescriptor.Write, ne_eq, if_pos h1, if_neg h1]
      exact ⟨(writeAux_frame _ _ _).2.2.1, (writeAux_frame _ _ _).2.2.2.1,
        (writeAux_frame _ _ _).2.2.2.2⟩

/-- Claim C10: a freshly constructed descriptor has all six cursor fields
zero, so the first Read starts at byte 0 of the file and the first Write
overwrites from byte offset 0 instead of appending at file_size. -/
theorem fileDescriptor_fresh_cursors :
    (∀ ft data bpc fsize fcluster,
      (FileDescriptor.mkFresh ft data bpc fsize fcluster).rd_off = 0 ∧
      (FileDescriptor.mkFresh ft data bpc fsize fcluster).rd_cluster = 0 ∧
      (FileDescriptor.mkFresh ft data bpc fsize fcluster).rd_cluster_off = 0 ∧
      (FileDescriptor.mkFresh ft data bpc fsize fcluster).wr_off = 0 ∧
      (FileDescriptor.mkFresh ft data bpc fsize fcluster).wr_cluster = 0 ∧
      (FileDescriptor.mkFresh ft data bpc fsize fcluster).wr_cluster_off = 0) ∧
    ((FileDescriptor.mkFresh [1, 1, 3, kEndOfClusterchain]
        [[], [], [10, 11, 12, 13], [14, 15, 16, 17]] 4 8 2).Read 4).1
      = [10, 11, 12, 13] ∧
    ((FileDescriptor.mkFresh [1, 1, 3, kEndOfClusterchain]
        [[], [], [10, 11, 12, 13], [14, 15, 16, 17]] 4 8 2).Write [9, 9]).2.data.getD 2 []
      = [9, 9, 12, 13] ∧
    ((FileDescriptor.mkFresh [1, 1, 3, kEndOfClusterchain]
        [[], [], [10, 11, 12, 13], [14, 15, 16, 17]] 4 8 2).Write [9, 9]).2.file_size = 8 :=
  ⟨fun _ _ _ _ _ => ⟨rfl, rfl, rfl, rfl, rfl, rfl⟩, by decide, by decide, by decide⟩

/-! ### Read loop correctness -/

theorem contentAlong_set_of_not_mem : ∀ (l : List Nat) (data : List (List Nat))
    (c : Nat) (v : List Nat), c ∉ l →
    contentAlong (data.set c v) l = contentAlong data l
  | [], _, _, _, _ => rfl
  | x :: xs, data, c, v, h => by
      simp only [contentAlong]
      rw [contentAlong_set_of_not_mem xs data c v (fun hh => h (List.mem_cons_of_mem _ hh))]
      rw [getD_set_ne data c x v [] (fun hh => h (by simp [hh]))]

theorem readAux_correct : ∀ (l : List Nat) (s : FileDescriptor) (remaining fuel : Nat),
    IsChain s.fat l → s.rd_cluster = l.headD 0 → l ≠ [] →
    s.rd_cluster_off = 0 → 0 < s.bytes_per_cluster →
    remaining ≤ l.length * s.bytes_per_cluster →
    (∀ c ∈ l, (s.data.getD c []).length = s.bytes_per_cluster ∧ c ≠ kEndOfClusterchain) →
    l.length + 1 ≤ fuel →
    (ReadAux fuel s remaining).1 = (contentAlong s.data l).take remaining
  | [], _, _, _, _, _, hne, _, _, _, _, _ => absurd rfl hne
  | c :: rest, s, remaining, fuel, hchain, hhd, _, hoff, hbpc, hrem, hdata, hfuel => by
      obtain ⟨f, rfl⟩ : ∃ f, fuel = f + 1 := ⟨fuel - 1, by omega⟩
      have hhd' : s.rd_cluster = c := by simpa using hhd
      have hlenc : (s.data.getD c []).length = s.bytes_per_cluster :=
        (hdata c (List.mem_cons_self _ _)).1
      by_cases h0 : remaining = 0
      · rw [h0, readAux_zero_rem]
        simp
      · have hcne : s.rd_cluster ≠ kEndOfClusterchain := by
          rw [hhd']
          exact (hdata c (List.mem_cons_self _ _)).2
        simp only [ReadAux]
        rw [if_neg h0, if_neg hcne, hoff, hhd']
        simp only [Nat.sub_zero, Nat.zero_add, List.drop_zero]
        by_cases hble : s.bytes_per_cluster ≤ remaining
        · have hmin : min remaining s.bytes_per_cluster = s.bytes_per_cluster :=
            Nat.min_eq_right hble
          rw [hmin, if_pos rfl]
          rcases rest with _ | ⟨c2, cs⟩
          · have hreq : remaining = s.bytes_per_cluster := by
              simp only [List.length_cons, List.length_nil] at hrem
              omega
            rw [show remaining - s.bytes_per_cluster = 0 from by omega, readAux_zero_rem]
            simp only [List.append_nil, contentAlong]
            rw [hreq, ← hlenc, List.take_length]
          · obtain ⟨h1, h2⟩ : NextCluster s.fat c = c2 ∧ IsChain s.fat (c2 :: cs) := hchain
            rw [h1]
            have hrem2 : remaining - s.bytes_per_cluster
                ≤ (c2 :: cs).length * s.bytes_per_cluster := by
              have hx : remaining ≤ (cs.length + 2) * s.bytes_per_cluster := by
                simpa [List.length_cons] using hrem
              have h' : (cs.length + 2) * s.bytes_per_cluster
                  = (cs.length + 1) * s.bytes_per_cluster + s.bytes_per_cluster := by ring
              rw [h'] at hx
              simp only [List.length_cons]
              generalize (cs.length + 1) * s.bytes_per_cluster = t at hx ⊢
              omega
            have ih := readAux_correct (c2 :: cs)
              { s with rd_cluster := c2, rd_cluster_off := 0 }
              (remaining - s.bytes_per_cluster) f h2 (by simp) (by simp) rfl hbpc
              hrem2 (fun x hx => hdata x (List.mem_cons_of_mem _ hx))
              (by simp only [List.length_cons] at hfuel ⊢; omega)
            rw [ih]
            calc (s.data.getD c []).take s.bytes_per_cluster ++
                  (contentAlong s.data (c2 :: cs)).take (remaining - s.bytes_per_cluster)
                = s.data.getD c [] ++
                  (contentAlong s.data (c2 :: cs)).take (remaining - s.bytes_per_cluster) := by
                  rw [← hlenc, List.take_length]
              _ = (s.data.getD c [] ++ contentAlong s.data (c2 :: cs)).take remaining := by
                  rw [List.take_append_eq_append_take,
                    List.take_of_length_le
                      (show (s.data.getD c []).length ≤ remaining by rw [hlenc]; exact hble),
                    hlenc]
              _ = (contentAlong s.data (c :: c2 :: cs)).take remaining := by
                  simp only [contentAlong]
        · have hmin : min remaining s.bytes_per_cluster = remaining :=
            Nat.min_eq_left (by omega)
          rw [hmin, if_neg (by omega : ¬remaining = s.bytes_per_cluster)]
          rw [Nat.sub_self, readAux_zero_rem]
          simp only [List.append_nil, contentAlong]
          rw [List.take_append_of_le_length (by rw [hlenc]; omega)]

/-! ### Write loop correctness -/

theorem listOverwrite_zero (l chunk : List Nat) :
    listOverwrite l 0 chunk = chunk ++ l.drop chunk.length := by
  simp [listOverwrite]

theorem le_numCluster_mul (bpc n : Nat) (h : 0 < bpc) : n ≤ numCluster bpc n * bpc := by
  unfold numCluster
  have h1 := Nat.div_add_mod (n + bpc - 1) bpc
  have h2 : (n + bpc - 1) % bpc < bpc := Nat.mod_lt _ h
  rw [Nat.mul_comm] at h1
  generalize (n + bpc - 1) / bpc * bpc = p at h1 ⊢
  omega

theorem numCluster_le (bpc n : Nat) (hb : 0 < bpc) : numCluster bpc n ≤ n := by
  unfold numCluster
  rw [Nat.div_le_iff_le_mul_add_pred hb]
  have h1 : n ≤ bpc * n := Nat.le_mul_of_pos_left n hb
  generalize bpc * n = t at h1 ⊢
  omega

theorem lt_numCluster (bpc n F : Nat) (hb : 0 < bpc) (h : F * bpc < n) :
    F < numCluster bpc n := by
  unfold numCluster
  have h2 : F + 1 ≤ (n + bpc - 1) / bpc := by
    rw [Nat.le_div_iff_mul_le hb, Nat.add_mul, Nat.one_mul]
    generalize F * bpc = t at h ⊢
    omega
  omega

theorem contentAlong_cons (data : List (List Nat)) (c : Nat) (cs : List Nat) :
    contentAlong data (c :: cs) = data.getD c [] ++ contentAlong data cs := rfl

theorem writeAux_correct : ∀ (l : List Nat) (s : FileDescriptor) (buf : List Nat) (fuel : Nat),
    IsChain s.fat l → s.wr_cluster = l.headD 0 → l ≠ [] →
    s.wr_cluster_off = 0 → 0 < s.bytes_per_cluster →
    buf.length ≤ l.length * s.bytes_per_cluster →
    l.Nodup →
    (∀ c ∈ l, c < s.data.length ∧ (s.data.getD c []).length = s.bytes_per_cluster ∧
      c ≠ kEndOfClusterchain) →
    2 * l.length + 1 ≤ fuel →
    (WriteAux fuel s buf).1 = buf.length ∧
    (WriteAux fuel s buf).2.fat = s.fat ∧
    (WriteAux fuel s buf).2.wr_off = s.wr_off + buf.length ∧
    ((WriteAux fuel s buf).2.file_size
      = if buf = [] then s.file_size else max s.file_size (s.wr_off + buf.length)) ∧
    contentAlong (WriteAux fuel s buf).2.data l
      = buf ++ (contentAlong s.data l).drop buf.length ∧
    (∀ c ∈ l, ((WriteAux fuel s buf).2.data.getD c []).length = s.bytes_per_cluster) ∧
    (∀ x d, x ∉ l → (WriteAux fuel s buf).2.data.getD x d = s.data.getD x d) ∧
    (WriteAux fuel s buf).2.data.length = s.data.length
  | [], _, _, _, _, _, hne, _, _, _, _, _, _ => absurd rfl hne
  | c :: rest, s, buf, fuel, hchain, hhd, _, hoff, hbpc, hrem, hnd, hdata, hfuel => by
      obtain ⟨f, rfl⟩ : ∃ f, fuel = f + 1 := ⟨fuel - 1, by omega⟩
      have hhd' : s.wr_cluster = c := by simpa using hhd
      have hc := hdata c (List.mem_cons_self _ _)
      have hclt : c < s.data.length := hc.1
      have hlenc : (s.data.getD c []).length = s.bytes_per_cluster := hc.2.1
      have hcnotin : c ∉ rest := (List.nodup_cons.1 hnd).1
      by_cases hbne : buf = []
      · rw [hbne, writeAux_nil]
        refine ⟨rfl, rfl, by simp, by simp, by simp, ?_, fun x d _ => rfl, rfl⟩
        intro x hx
        exact (hdata x hx).2.1
      · simp only [WriteAux]
        rw [if_neg hbne, if_neg (show ¬s.wr_cluster_off = s.bytes_per_cluster by omega),
          hoff, hhd']
        simp only [Nat.sub_zero, Nat.zero_add]
        by_cases hsmall : buf.length ≤ s.bytes_per_cluster
        · have hmin : min buf.length s.bytes_per_cluster = buf.length :=
            Nat.min_eq_left hsmall
          rw [hmin, List.take_length, List.drop_length, writeAux_nil]
          dsimp only
          refine ⟨by simp, rfl, rfl, ?_, ?_, ?_, ?_, by simp⟩
          · rw [if_neg hbne]
          · rw [contentAlong_cons, contentAlong_cons,
              getD_set_self s.data c _ [] hclt,
              contentAlong_set_of_not_mem rest s.data c _ hcnotin,
              listOverwrite_zero,
              List.drop_append_eq_append_drop,
              show buf.length - (s.data.getD c []).length = 0 from by rw [hlenc]; omega,
              List.drop_zero, List.append_assoc]
          · intro x hx
            rcases List.mem_cons.1 hx with hxc | hxr
            · subst hxc
              rw [getD_set_self s.data x _ [] hclt, listOverwrite_zero]
              simp only [List.length_append, List.length_drop, hlenc]
              omega
            · rw [getD_set_ne s.data c x _ [] (fun hh => hcnotin (hh ▸ hxr))]
              exact (hdata x (List.mem_cons_of_mem _ hxr)).2.1
          · intro x d hx
            rw [getD_set_ne s.data c x _ d
              (fun hh => hx (by rw [← hh]; exact List.mem_cons_self _ _))]
        · have hlt : s.bytes_per_cluster < buf.length := by omega
          have hmin : min buf.length s.bytes_per_cluster = s.bytes_per_cluster :=
            Nat.min_eq_right (by omega)
          rw [hmin]
          rcases rest with _ | ⟨c2, cs⟩
          · exfalso
            simp only [List.length_cons, List.length_nil] at hrem
            omega
          · obtain ⟨h1, h2⟩ : NextCluster s.fat c = c2 ∧ IsChain s.fat (c2 :: cs) := hchain
            have hc2 := hdata c2 (List.mem_cons_of_mem _ (List.mem_cons_self _ _))
            obtain ⟨f2, rfl⟩ : ∃ f2, f = f2 + 1 := by
              refine ⟨f - 1, ?_⟩
              simp only [List.length_cons] at hfuel
              omega
            have hdropne : ¬buf.drop s.bytes_per_cluster = [] := by
              rw [List.drop_eq_nil_iff]
              omega
            simp only [WriteAux]
            rw [if_neg hdropne, if_pos trivial, h1, if_neg hc2.2.2]
            set S2 : FileDescriptor :=
              { s with
                  data := s.data.set c
                    (listOverwrite (s.data.getD c []) 0 (buf.take s.bytes_per_cluster)),
                  file_size := max s.file_size (s.wr_off + s.bytes_per_cluster),
                  wr_off := s.wr_off + s.bytes_per_cluster,
                  wr_cluster := c2,
                  wr_cluster_off := 0 } with hS2
            have hrem2 : (buf.drop s.bytes_per_cluster).length
                ≤ (c2 :: cs).length * s.bytes_per_cluster := by
              simp only [List.length_drop, List.length_cons]
              have hx : buf.length ≤ (cs.length + 1 + 1) * s.bytes_per_cluster := by
                simpa [List.length_cons] using hrem
              rw [Nat.succ_mul] at hx
              generalize (cs.length + 1) * s.bytes_per_cluster = t at hx ⊢
              omega
            have hdata2 : ∀ x ∈ c2 :: cs, x < S2.data.length ∧
                (S2.data.getD x []).length = S2.bytes_per_cluster ∧
                x ≠ kEndOfClusterchain := by
              intro x hx
              have hxd := hdata x (List.mem_cons_of_mem _ hx)
              have hcx : c ≠ x := fun hh => hcnotin (hh ▸ hx)
              refine ⟨?_, ?_, hxd.2.2⟩
              · rw [hS2]
                dsimp only
                rw [List.length_set]
                exact hxd.1
              · rw [hS2]
                dsimp only
                rw [getD_set_ne s.data c x _ [] hcx]
                exact hxd.2.1
            have hfuel2 : 2 * (c2 :: cs).length + 1 ≤ f2 := by
              simp only [List.length_cons] at hfuel ⊢
              omega
            obtain ⟨ih1, ih2, ih3, ih4, ih5, ih6, ih7, ih8⟩ :=
              writeAux_correct (c2 :: cs) S2 (buf.drop s.bytes_per_cluster) f2
                h2 rfl (by simp) rfl hbpc hrem2 (List.nodup_cons.1 hnd).2 hdata2 hfuel2
            refine ⟨?_, ?_, ?_, ?_, ?_, ?_, ?_, ?_⟩
            · rw [ih1]
              simp only [List.length_drop]
              omega
            · rw [ih2, hS2]
            · rw [ih3, hS2]
              dsimp only
              simp only [List.length_drop]
              omega
            · rw [if_neg hbne, ih4, if_neg hdropne, hS2]
              dsimp only
              simp only [List.length_drop]
              omega
            · rw [contentAlong_cons, ih7 c [] hcnotin, ih5, hS2]
              dsimp only
              rw [getD_set_self s.data c _ [] hclt, listOverwrite_zero,
                contentAlong_set_of_not_mem (c2 :: cs) s.data c _ hcnotin]
              rw [List.length_take,
                show min s.bytes_per_cluster buf.length = s.bytes_per_cluster from by omega,
                List.drop_eq_nil_of_le (show (s.data.getD c []).length ≤ s.bytes_per_cluster
                  from by rw [hlenc]),
                List.append_nil]
              conv_rhs => rw [contentAlong_cons, List.drop_append_eq_append_drop]
              rw [List.drop_eq_nil_of_le (show (s.data.getD c []).length ≤ buf.length
                  from by rw [hlenc]; omega),
                List.nil_append, hlenc, List.length_drop, ← List.append_assoc,
                List.take_append_drop]
            · intro x hx
              rcases List.mem_cons.1 hx with hxc | hxr
              · subst hxc
                rw [ih7 x [] hcnotin, hS2]
                dsimp only
                rw [getD_set_self s.data x _ [] hclt, listOverwrite_zero]
                simp only [List.length_append, List.length_take, List.length_drop, hlenc]
                omega
              · exact ih6 x hxr
            · intro x d hx
              have hx2 : x ∉ c2 :: cs := fun hh => hx (List.mem_cons_of_mem _ hh)
              rw [ih7 x d hx2, hS2]
              dsimp only
              rw [getD_set_ne s.data c x _ d
                (fun hh => hx (by rw [← hh]; exact List.mem_cons_self _ _))]
            · rw [ih8, hS2]
              dsimp only
              rw [List.length_set]

/-! ### Write loop under volume exhaustion -/

theorem freeClusters_linkChain_all (ft : List Nat) (c0 : Nat) (cs : List Nat)
    (h : freeClusters ft = c0 :: cs) :
    freeClusters (linkChain ft c0 cs) = [] := by
  have hnd : (c0 :: cs).Nodup := h ▸ nodup_freeClusters ft
  have hmem0 : c0 ∈ freeClusters ft := by
    rw [h]
    exact List.mem_cons_self _ _
  have hprop := (mem_freeClusters ft c0).1 hmem0
  have hmem : ∀ x ∈ cs, 2 ≤ x ∧ x < ft.length := by
    intro x hx
    have hx2 : x ∈ freeClusters ft := by
      rw [h]
      exact List.mem_cons_of_mem _ hx
    have := (mem_freeClusters ft x).1 hx2
    exact ⟨this.2.1, this.1⟩
  rw [List.eq_nil_iff_forall_not_mem]
  intro x hx
  have hx2 := (mem_freeClusters (linkChain ft c0 cs) x).1 hx
  have hxl : x < ft.length := by
    have := hx2.1
    rwa [linkChain_length] at this
  by_cases hmem2 : x ∈ c0 :: cs
  · exact linkChain_getD_mem_ne_zero cs ft c0 x hnd hmem hprop.1 hmem2 hx2.2.2
  · have hfr : (linkChain ft c0 cs).getD x 0 = ft.getD x 0 :=
      linkChain_getD_of_not_mem cs ft c0 x 0
        (fun hh => hmem2 (by simp [hh])) (fun hh => hmem2 (by simp [hh]))
    have hxf : x ∈ freeClusters ft :=
      (mem_freeClusters ft x).2 ⟨hxl, hx2.2.1, by rw [← hfr]; exact hx2.2.2⟩
    rw [h] at hxf
    exact hmem2 hxf

theorem writeAux_stop : ∀ (l : List Nat) (s : FileDescriptor) (buf : List Nat) (fuel : Nat),
    IsChain s.fat l → s.wr_cluster = l.headD 0 → l ≠ [] →
    s.wr_cluster_off = 0 → 0 < s.bytes_per_cluster →
    l.length * s.bytes_per_cluster < buf.length →
    l.Nodup →
    (∀ c ∈ l, c < s.data.length ∧ (s.data.getD c []).length = s.bytes_per_cluster ∧
      c ≠ kEndOfClusterchain) →
    freeClusters s.fat = [] →
    2 * l.length + 2 ≤ fuel →
    (WriteAux fuel s buf).1 = l.length * s.bytes_per_cluster ∧
    (WriteAux fuel s buf).2.file_size
      = max s.file_size (s.wr_off + l.length * s.bytes_per_cluster) ∧
    (WriteAux fuel s buf).2.wr_off = s.wr_off + l.length * s.bytes_per_cluster
  | [], _, _, _, _, _, hne, _, _, _, _, _, _, _ => absurd rfl hne
  | c :: rest, s, buf, fuel, hchain, hhd, _, hoff, hbpc, hlong, hnd, hdata, hfree, hfuel => by
      obtain ⟨f, rfl⟩ : ∃ f, fuel = f + 1 := ⟨fuel - 1, by omega⟩
      have hhd' : s.wr_cluster = c := by simpa using hhd
      have hc := hdata c (List.mem_cons_self _ _)
      have hclt : c < s.data.length := hc.1
      have hlenc : (s.data.getD c []).length = s.bytes_per_cluster := hc.2.1
      have hcnotin : c ∉ rest := (List.nodup_cons.1 hnd).1
      have hbpcle : s.bytes_per_cluster ≤ (c :: rest).length * s.bytes_per_cluster :=
        Nat.le_mul_of_pos_left _ (by simp)
      have hlt : s.bytes_per_cluster < buf.length := by omega
      have hbne : ¬buf = [] := by
        intro h
        rw [h] at hlong
        simp at hlong
      have hmin : min buf.length s.bytes_per_cluster = s.bytes_per_cluster :=
        Nat.min_eq_right (by omega)
      obtain ⟨f2, rfl⟩ : ∃ f2, f = f2 + 1 := by
        refine ⟨f - 1, ?_⟩
        simp only [List.length_cons] at hfuel
        omega
      have hdropne : ¬buf.drop s.bytes_per_cluster = [] := by
        rw [List.drop_eq_nil_iff]
        omega
      simp only [WriteAux]
      rw [if_neg hbne, if_neg (show ¬s.wr_cluster_off = s.bytes_per_cluster by omega),
        hoff, hhd']
      simp only [Nat.sub_zero, Nat.zero_add]
      rw [hmin]
      simp only [WriteAux]
      rw [if_neg hdropne, if_pos trivial]
      rcases rest with _ | ⟨c2, cs⟩
      · have h1 : NextCluster s.fat c = kEndOfClusterchain := hchain
        rw [h1, if_pos rfl]
        have hz : (ExtendCluster s.fat c
            (numCluster s.bytes_per_cluster (buf.drop s.bytes_per_cluster).length)).2 = 0 := by
          simp [ExtendCluster, hfree]
        rw [if_pos hz]
        refine ⟨by simp, by simp, by simp⟩
      · obtain ⟨h1, h2⟩ : NextCluster s.fat c = c2 ∧ IsChain s.fat (c2 :: cs) := hchain
        have hc2 := hdata c2 (List.mem_cons_of_mem _ (List.mem_cons_self _ _))
        rw [h1, if_neg hc2.2.2]
        set S2 : FileDescriptor :=
          { s with
              data := s.data.set c
                (listOverwrite (s.data.getD c []) 0 (buf.take s.bytes_per_cluster)),
              file_size := max s.file_size (s.wr_off + s.bytes_per_cluster),
              wr_off := s.wr_off + s.bytes_per_cluster,
              wr_cluster := c2,
              wr_cluster_off := 0 } with hS2
        have hlong2 : (c2 :: cs).length * s.bytes_per_cluster
            < (buf.drop s.bytes_per_cluster).length := by
          simp only [List.length_drop, List.length_cons]
          have hx : (cs.length + 1 + 1) * s.bytes_per_cluster < buf.length := by
            simpa [List.length_cons] using hlong
          rw [Nat.succ_mul] at hx
          generalize (cs.length + 1) * s.bytes_per_cluster = t at hx ⊢
          omega
        have hdata2 : ∀ x ∈ c2 :: cs, x < S2.data.length ∧
            (S2.data.getD x []).length = S2.bytes_per_cluster ∧
            x ≠ kEndOfClusterchain := by
          intro x hx
          have hxd := hdata x (List.mem_cons_of_mem _ hx)
          have hcx : c ≠ x := fun hh => hcnotin (hh ▸ hx)
          refine ⟨?_, ?_, hxd.2.2⟩
          · rw [hS2]
            dsimp only
            rw [List.length_set]
            exact hxd.1
          · rw [hS2]
            dsimp only
            rw [getD_set_ne s.data c x _ [] hcx]
            exact hxd.2.1
        have hfuel2 : 2 * (c2 :: cs).length + 2 ≤ f2 := by
          simp only [List.length_cons] at hfuel ⊢
          omega
        obtain ⟨ih1, ih2, ih3⟩ :=
          writeAux_stop (c2 :: cs) S2 (buf.drop s.bytes_per_cluster) f2
            h2 rfl (by simp) rfl hbpc hlong2 (List.nodup_cons.1 hnd).2 hdata2 hfree hfuel2
        refine ⟨?_, ?_, ?_⟩
        · rw [ih1]
          simp only [List.length_cons]
          ring
        · rw [ih2, hS2]
          dsimp only
          simp only [List.length_cons]
          rw [Nat.succ_mul (cs.length + 1) s.bytes_per_cluster]
          generalize (cs.length + 1) * s.bytes_per_cluster = t
          omega
        · rw [ih3, hS2]
          dsimp only
          simp only [List.length_cons]
          rw [Nat.succ_mul (cs.length + 1) s.bytes_per_cluster]
          generalize (cs.length + 1) * s.bytes_per_cluster = t
          omega

/-- Opening a fresh empty file for writing allocates a chain sized for the
request and hands the copy loop the volume with that chain linked. -/
theorem write_fresh_unfold (ft : List Nat) (data : List (List Nat)) (bpc : Nat)
    (buf : List Nat) (c0 : Nat) (cs : List Nat)
    (halloc : AllocateClusterChain ft (numCluster bpc buf.length)
      = (linkChain ft c0 cs, some c0))
    (hc0 : ¬c0 = 0) :
    FileDescriptor.Write (FileDescriptor.mkFresh ft data bpc 0 0) buf
      = WriteAux (2 * buf.length + 2)
          { fat := linkChain ft c0 cs, data := data, bytes_per_cluster := bpc,
            file_size := 0, first_cluster := c0,
            rd_off := 0, rd_cluster := 0, rd_cluster_off := 0,
            wr_off := 0, wr_cluster := c0, wr_cluster_off := 0 } buf := by
  simp only [FileDescriptor.Write, FileDescriptor.mkFresh]
  rw [if_neg (show ¬((0 : Nat) ≠ 0) from by omega),
    if_neg (show ¬((0 : Nat) ≠ 0) from by omega), halloc]
  simp only [Option.getD_some]
  rw [if_neg hc0]

/-- Reading through a handle whose read cursor is still unbound first binds it
to the entry's first cluster. -/
theorem read_unfold (s : FileDescriptor) (len : Nat) (h : s.rd_cluster = 0)
    (n : Nat) (hn : min len (s.file_size - s.rd_off) = n) :
    (s.Read len).1 = (ReadAux (n + 1)
      { s with rd_cluster := s.first_cluster } n).1 := by
  simp only [FileDescriptor.Read]
  rw [if_pos h, hn]

/-- Claim C1: on a fresh handle over an empty entry, writing a buffer that
spans at least two clusters (with enough free clusters on the volume) reports
the full length written, reading that many bytes back from offset 0 returns
exactly the written bytes, and Size() returns the written length. -/
theorem write_read_roundtrip (ft : List Nat) (data : List (List Nat)) (bpc : Nat)
    (buf : List Nat)
    (hbpc : 0 < bpc)
    (hspan : bpc < buf.length)
    (hlen : data.length = ft.length)
    (hbound : ft.length ≤ 0x0FFFFFF8)
    (hdata : ∀ c, c < data.length → (data.getD c []).length = bpc)
    (hfree : numCluster bpc buf.length ≤ (freeClusters ft).length) :
    (FileDescriptor.Write (FileDescriptor.mkFresh ft data bpc 0 0) buf).1 = buf.length ∧
    ((FileDescriptor.Write (FileDescriptor.mkFresh ft data bpc 0 0) buf).2.Read
      buf.length).1 = buf ∧
    (FileDescriptor.Write (FileDescriptor.mkFresh ft data bpc 0 0) buf).2.Size
      = buf.length := by
  have hKN : numCluster bpc buf.length ≤ buf.length := numCluster_le bpc buf.length hbpc
  have hK1 : 1 ≤ numCluster bpc buf.length := by
    unfold numCluster
    rw [Nat.le_div_iff_mul_le hbpc, Nat.one_mul]
    omega
  have htl : ((freeClusters ft).take (numCluster bpc buf.length)).length
      = numCluster bpc buf.length := by
    rw [List.length_take]
    omega
  rcases htakeEq : (freeClusters ft).take (numCluster bpc buf.length) with _ | ⟨c0, cs⟩
  · rw [htakeEq] at htl
    simp at htl
    omega
  · have hsub : ∀ x ∈ c0 :: cs, x ∈ freeClusters ft := by
      intro x hx
      have hx2 : x ∈ (freeClusters ft).take (numCluster bpc buf.length) := by
        rw [htakeEq]
        exact hx
      exact List.mem_of_mem_take hx2
    have hnd : (c0 :: cs).Nodup := by
      have hnd2 := (List.take_sublist (numCluster bpc buf.length)
        (freeClusters ft)).nodup (nodup_freeClusters ft)
      rwa [htakeEq] at hnd2
    have hmem : ∀ x ∈ c0 :: cs, 2 ≤ x ∧ x < ft.length := by
      intro x hx
      have hx2 := (mem_freeClusters ft x).1 (hsub x hx)
      exact ⟨hx2.2.1, hx2.1⟩
    have hc0m := hmem c0 (List.mem_cons_self _ _)
    have hchain : IsChain (linkChain ft c0 cs) (c0 :: cs) :=
      linkChain_isChain cs ft c0 hnd (fun x hx => hmem x (List.mem_cons_of_mem _ hx))
        hc0m.2 hbound
    have halloc : AllocateClusterChain ft (numCluster bpc buf.length)
        = (linkChain ft c0 cs, some c0) := by
      unfold AllocateClusterChain
      rw [htakeEq]
    have hll : (c0 :: cs).length = numCluster bpc buf.length := by
      rw [← htakeEq]
      exact htl
    have hwrite := write_fresh_unfold ft data bpc buf c0 cs halloc (by omega)
    set S0 : FileDescriptor :=
      { fat := linkChain ft c0 cs, data := data, bytes_per_cluster := bpc,
        file_size := 0, first_cluster := c0,
        rd_off := 0, rd_cluster := 0, rd_cluster_off := 0,
        wr_off := 0, wr_cluster := c0, wr_cluster_off := 0 } with hS0
    have hdata0 : ∀ x ∈ c0 :: cs, x < S0.data.length ∧
        (S0.data.getD x []).length = S0.bytes_per_cluster ∧
        x ≠ kEndOfClusterchain := by
      intro x hx
      have hxm := hmem x hx
      refine ⟨?_, ?_, ?_⟩
      · rw [hS0]
        dsimp only
        rw [hlen]
        exact hxm.2
      · rw [hS0]
        dsimp only
        exact hdata x (by rw [hlen]; exact hxm.2)
      · intro hh
        rw [hh] at hxm
        unfold kEndOfClusterchain at hxm
        omega
    obtain ⟨w1, w2, w3, w4, w5, w6, w7, w8⟩ :=
      writeAux_correct (c0 :: cs) S0 buf (2 * buf.length + 2)
        (by rw [hS0]; dsimp only; exact hchain)
        rfl (by simp) rfl (by rw [hS0]; dsimp only; exact hbpc)
        (by rw [hll, hS0]; dsimp only; exact le_numCluster_mul bpc buf.length hbpc)
        hnd hdata0
        (by rw [hll]; omega)
    have hbufne : ¬buf = [] := by
      intro h
      rw [h] at hspan
      simp at hspan
    obtain ⟨fbpc, ffc, fro, frc, frco⟩ := writeAux_frame (2 * buf.length + 2) S0 buf
    have hbpcW : (WriteAux (2 * buf.length + 2) S0 buf).2.bytes_per_cluster = bpc := fbpc
    have hfcW : (WriteAux (2 * buf.length + 2) S0 buf).2.first_cluster = c0 := ffc
    have hroW : (WriteAux (2 * buf.length + 2) S0 buf).2.rd_off = 0 := fro
    have hrcW : (WriteAux (2 * buf.length + 2) S0 buf).2.rd_cluster = 0 := frc
    have hrcoW : (WriteAux (2 * buf.length + 2) S0 buf).2.rd_cluster_off = 0 := frco
    have hfsW : (WriteAux (2 * buf.length + 2) S0 buf).2.file_size = buf.length := by
      rw [w4, if_neg hbufne, hS0]
      simp
    refine ⟨?_, ?_, ?_⟩
    · rw [hwrite]
      exact w1
    · have hn : min buf.length
          ((WriteAux (2 * buf.length + 2) S0 buf).2.file_size -
            (WriteAux (2 * buf.length + 2) S0 buf).2.rd_off) = buf.length := by
        rw [hfsW, hroW]
        simp
      rw [hwrite, read_unfold _ _ hrcW buf.length hn]
      have hr := readAux_correct (c0 :: cs)
        { (WriteAux (2 * buf.length + 2) S0 buf).2 with
            rd_cluster := (WriteAux (2 * buf.length + 2) S0 buf).2.first_cluster }
        buf.length (buf.length + 1)
        (by
          show IsChain (WriteAux (2 * buf.length + 2) S0 buf).2.fat (c0 :: cs)
          rw [w2, hS0]
          exact hchain)
        hfcW (by simp) hrcoW
        (by
          show 0 < (WriteAux (2 * buf.length + 2) S0 buf).2.bytes_per_cluster
          rw [hbpcW]
          exact hbpc)
        (by
          show buf.length ≤ (c0 :: cs).length *
            (WriteAux (2 * buf.length + 2) S0 buf).2.bytes_per_cluster
          rw [hbpcW, hll]
          exact le_numCluster_mul bpc buf.length hbpc)
        (by
          intro x hx
          constructor
          · show ((WriteAux (2 * buf.length + 2) S0 buf).2.data.getD x []).length
              = (WriteAux (2 * buf.length + 2) S0 buf).2.bytes_per_cluster
            rw [hbpcW]
            exact w6 x hx
          · have hxm := hmem x hx
            intro hh
            rw [hh] at hxm
            unfold kEndOfClusterchain at hxm
            omega)
        (by rw [hll]; omega)
      rw [hr]
      show (contentAlong (WriteAux (2 * buf.length + 2) S0 buf).2.data
        (c0 :: cs)).take buf.length = buf
      rw [w5, List.take_append_of_le_length (Nat.le_refl _), List.take_length]
    · rw [hwrite]
      exact hfsW

/-- Witness for C1: writing ten bytes across three 4-byte clusters on a small
volume and reading them back returns the identical bytes. -/
theorem write_read_roundtrip_witness :
    ((FileDescriptor.Write
        (FileDescriptor.mkFresh [1, 1, 0, 0, 0, 0]
          [[0, 0, 0, 0], [0, 0, 0, 0], [0, 0, 0, 0], [0, 0, 0, 0], [0, 0, 0, 0], [0, 0, 0, 0]]
          4 0 0) [7, 7, 7, 7, 7, 1, 2, 3, 4, 5]).2.Read 10).1
      = [7, 7, 7, 7, 7, 1, 2, 3, 4, 5] :=
  (write_read_roundtrip [1, 1, 0, 0, 0, 0]
    [[0, 0, 0, 0], [0, 0, 0, 0], [0, 0, 0, 0], [0, 0, 0, 0], [0, 0, 0, 0], [0, 0, 0, 0]]
    4 [7, 7, 7, 7, 7, 1, 2, 3, 4, 5]
    (by decide) (by decide) (by decide) (by decide) (by decide) (by decide)).2.1

/-- Claim C6: writing a buffer larger than all remaining free space on a
fresh empty handle stops at the point of allocation failure, returns the
short count of bytes actually written (every byte the free clusters could
hold), and file_size is exactly that count, never more. -/
theorem write_volume_full_short (ft : List Nat) (data : List (List Nat)) (bpc : Nat)
    (buf : List Nat)
    (hbpc : 0 < bpc)
    (hlen : data.length = ft.length)
    (hbound : ft.length ≤ 0x0FFFFFF8)
    (hdata : ∀ c, c < data.length → (data.getD c []).length = bpc)
    (hne : freeClusters ft ≠ [])
    (hshort : (freeClusters ft).length * bpc < buf.length) :
    (FileDescriptor.Write (FileDescriptor.mkFresh ft data bpc 0 0) buf).1
      = (freeClusters ft).length * bpc ∧
    (FileDescriptor.Write (FileDescriptor.mkFresh ft data bpc 0 0) buf).1
      < buf.length ∧
    (FileDescriptor.Write (FileDescriptor.mkFresh ft data bpc 0 0) buf).2.Size
      = (freeClusters ft).length * bpc := by
  have hK : (freeClusters ft).length < numCluster bpc buf.length :=
    lt_numCluster bpc buf.length _ hbpc hshort
  have htake : (freeClusters ft).take (numCluster bpc buf.length) = freeClusters ft :=
    List.take_of_length_le (by omega)
  rcases hfc : freeClusters ft with _ | ⟨c0, cs⟩
  · exact absurd hfc hne
  · have halloc : AllocateClusterChain ft (numCluster bpc buf.length)
        = (linkChain ft c0 cs, some c0) := by
      unfold AllocateClusterChain
      rw [htake, hfc]
    have hnd : (c0 :: cs).Nodup := hfc ▸ nodup_freeClusters ft
    have hmem : ∀ x ∈ c0 :: cs, 2 ≤ x ∧ x < ft.length := by
      intro x hx
      have hx2 : x ∈ freeClusters ft := by
        rw [hfc]
        exact hx
      have := (mem_freeClusters ft x).1 hx2
      exact ⟨this.2.1, this.1⟩
    have hc0m := hmem c0 (List.mem_cons_self _ _)
    have hchain : IsChain (linkChain ft c0 cs) (c0 :: cs) :=
      linkChain_isChain cs ft c0 hnd (fun x hx => hmem x (List.mem_cons_of_mem _ hx))
        hc0m.2 hbound
    have hwrite := write_fresh_unfold ft data bpc buf c0 cs halloc (by omega)
    set S0 : FileDescriptor :=
      { fat := linkChain ft c0 cs, data := data, bytes_per_cluster := bpc,
        file_size := 0, first_cluster := c0,
        rd_off := 0, rd_cluster := 0, rd_cluster_off := 0,
        wr_off := 0, wr_cluster := c0, wr_cluster_off := 0 } with hS0
    have hdata0 : ∀ x ∈ c0 :: cs, x < S0.data.length ∧
        (S0.data.getD x []).length = S0.bytes_per_cluster ∧
        x ≠ kEndOfClusterchain := by
      intro x hx
      have hxm := hmem x hx
      refine ⟨?_, ?_, ?_⟩
      · rw [hS0]
        dsimp only
        rw [hlen]
        exact hxm.2
      · rw [hS0]
        dsimp only
        exact hdata x (by rw [hlen]; exact hxm.2)
      · intro hh
        rw [hh] at hxm
        unfold kEndOfClusterchain at hxm
        omega
    have hlong : (c0 :: cs).length * S0.bytes_per_cluster < buf.length := by
      rw [hS0]
      dsimp only
      rw [← hfc]
      exact hshort
    have hFle : (c0 :: cs).length ≤ buf.length := by
      have h1 : (c0 :: cs).length ≤ (c0 :: cs).length * bpc :=
        Nat.le_mul_of_pos_right _ hbpc
      have h2 : (c0 :: cs).length * bpc < buf.length := by
        rw [← hfc]
        exact hshort
      omega
    obtain ⟨st1, st2, st3⟩ :=
      writeAux_stop (c0 :: cs) S0 buf (2 * buf.length + 2)
        (by rw [hS0]; dsimp only; exact hchain)
        rfl (by simp) rfl (by rw [hS0]; dsimp only; exact hbpc)
        hlong hnd hdata0
        (by rw [hS0]; dsimp only; exact freeClusters_linkChain_all ft c0 cs hfc)
        (by omega)
    have hv1 : (WriteAux (2 * buf.length + 2) S0 buf).1
        = (c0 :: cs).length * bpc := by
      rw [st1, hS0]
    refine ⟨?_, ?_, ?_⟩
    · rw [hwrite]
      exact hv1
    · rw [hwrite, hv1]
      rw [hfc] at hshort
      exact hshort
    · rw [hwrite]
      show (WriteAux (2 * buf.length + 2) S0 buf).2.file_size
        = (c0 :: cs).length * bpc
      rw [st2, hS0]
      simp

/-- Witness for C6: a volume with two free 2-byte clusters, asked to write
five bytes, writes exactly four and records file size four. -/
theorem write_volume_full_short_witness :
    (FileDescriptor.Write
      (FileDescriptor.mkFresh [1, 1, 0, 0] [[0, 0], [0, 0], [0, 0], [0, 0]] 2 0 0)
      [1, 2, 3, 4, 5]).1 = 4 ∧
    (FileDescriptor.Write
      (FileDescriptor.mkFresh [1, 1, 0, 0] [[0, 0], [0, 0], [0, 0], [0, 0]] 2 0 0)
      [1, 2, 3, 4, 5]).2.Size = 4 := by
  have h := write_volume_full_short [1, 1, 0, 0] [[0, 0], [0, 0], [0, 0], [0, 0]] 2
    [1, 2, 3, 4, 5] (by decide) (by decide) (by decide) (by decide) (by decide) (by decide)
  exact ⟨h.1, h.2.2⟩

end fat
